import Mathlib

/-!
Verification of the tic-tac-toe game engine.

The repository contains three near-identical React source files:
`src/tic_tac_toe_frontend/src/App.js` (flat 9-element board) and two
unnamed variants (3x3 two-dimensional boards).  This file gives a shallow
embedding of the game logic of those files — the win evaluator
`calculateWinner`, the status-recomputation effect, the click handler
`handleSquareClick`, the reset handlers, the automated-opponent policy
`getAIMove` / `aiMove`, the timer-based opponent scheduling — and proves
or refutes the specified properties of that logic.
-/

set_option maxRecDepth 4096

/-- A player mark: `"X"` or `"O"` in the source. -/
inductive Player where
  | X : Player
  | O : Player
deriving DecidableEq, Repr

/-- A board cell: `null` (empty) or a mark, as in the JS board arrays. -/
abbrev Cell := Option Player

/-- The flat board of `App.js`: `Array(9).fill(null)`, indexed 0..8 row-major. -/
abbrev Board := Fin 9 → Cell

/-- The all-empty board, `Array(9).fill(null)` (App.js line 66). -/
def emptyBoard : Board := fun _ => none

/-- Copying update `const copy = squares.slice(); copy[idx] = v` /
`const nextBoard = [...board]; nextBoard[idx] = v` seen at App.js
lines 41-42, 47-48, 101-102 and 117-118: a new board equal to `b`
except at `i`. -/
def setCell (b : Board) (i : Fin 9) (v : Cell) : Board :=
  fun j => if j = i then v else b j

/-- The eight line index triples of `calculateWinner` (App.js lines 10-14):
three rows, three columns, two diagonals, in source order. -/
def lines : List (Fin 9 × Fin 9 × Fin 9) :=
  [(0, 1, 2), (3, 4, 5), (6, 7, 8),
   (0, 3, 6), (1, 4, 7), (2, 5, 8),
   (0, 4, 8), (2, 4, 6)]

/-- One iteration of the `calculateWinner` loop (App.js lines 15-22):
`squares[a] && squares[a] === squares[b] && squares[a] === squares[c]`
yields `squares[a]`, otherwise nothing. -/
def lineWinner (b : Board) (l : Fin 9 × Fin 9 × Fin 9) : Option Player :=
  match b l.1 with
  | none => none
  | some m => if b l.2.1 = some m ∧ b l.2.2 = some m then some m else none

/-- The `for (const [a, b, c] of lines)` loop of `calculateWinner`:
return the winner of the first matching line. -/
def scanLines (b : Board) : List (Fin 9 × Fin 9 × Fin 9) → Option Player
  | [] => none
  | l :: rest =>
    match lineWinner b l with
    | some m => some m
    | none => scanLines b rest

/-- `calculateWinner(squares)` of App.js lines 9-25: the mark of the first
all-equal non-empty line, else `null`. -/
def calculateWinner (b : Board) : Option Player :=
  scanLines b lines

/-- `board.every((s) => s)` (App.js line 82): no empty cell remains. -/
def boardFull (b : Board) : Bool :=
  (List.finRange 9).all fun i => (b i).isSome

/-- The outcome classification, `{InProgress, Win(mark), Draw}` in the spec. -/
inductive Outcome where
  | inProgress : Outcome
  | win : Player → Outcome
  | draw : Outcome
deriving DecidableEq, Repr

/-- The outcome evaluator: the status-recomputation effect of App.js
lines 77-89 (`win` if `calculateWinner` found one, `draw` if the board is
full, `ongoing` otherwise), read as the spec's `evaluate : Board → Outcome`. -/
def evaluate (b : Board) : Outcome :=
  match calculateWinner b with
  | some w => Outcome.win w
  | none => if boardFull b then Outcome.draw else Outcome.inProgress

/-- Specification-side predicate: line `l` is filled with mark `m`. -/
def lineAll (b : Board) (l : Fin 9 × Fin 9 × Fin 9) (m : Player) : Prop :=
  b l.1 = some m ∧ b l.2.1 = some m ∧ b l.2.2 = some m

instance (b : Board) (l : Fin 9 × Fin 9 × Fin 9) (m : Player) :
    Decidable (lineAll b l m) := by
  unfold lineAll; infer_instance

/-- Specification-side predicate: some row, column or diagonal is filled
with mark `m` ("some line among the 3 rows, 3 columns, and 2 diagonals
has all 3 cells equal to the non-empty mark m"). -/
def hasWin (b : Board) (m : Player) : Prop :=
  ∃ l ∈ lines, lineAll b l m

instance (b : Board) (m : Player) : Decidable (hasWin b m) := by
  unfold hasWin; infer_instance

/-- A convenient explicit board builder: cells listed row-major. -/
def mkBoard (c0 c1 c2 c3 c4 c5 c6 c7 c8 : Cell) : Board :=
  fun i => [c0, c1, c2, c3, c4, c5, c6, c7, c8].getD i.val none

theorem lineWinner_eq_some {b : Board} {l : Fin 9 × Fin 9 × Fin 9} {m : Player}
    (h : lineWinner b l = some m) : lineAll b l m := by
  unfold lineWinner at h
  split at h
  · exact absurd h (by simp)
  · rename_i m' hb
    split at h
    · rename_i hc
      obtain rfl : m' = m := by injection h
      exact ⟨hb, hc.1, hc.2⟩
    · exact absurd h (by simp)

theorem lineWinner_of_lineAll {b : Board} {l : Fin 9 × Fin 9 × Fin 9} {m : Player}
    (h : lineAll b l m) : lineWinner b l = some m := by
  obtain ⟨h1, h2, h3⟩ := h
  unfold lineWinner
  split
  · rename_i hb; rw [h1] at hb; exact absurd hb (by simp)
  · rename_i m' hb
    rw [h1] at hb
    obtain rfl : m = m' := by injection hb
    rw [if_pos ⟨h2, h3⟩]

theorem scanLines_eq_some {b : Board} {L : List (Fin 9 × Fin 9 × Fin 9)} {m : Player}
    (h : scanLines b L = some m) : ∃ l ∈ L, lineAll b l m := by
  induction L with
  | nil => exact absurd h (by simp [scanLines])
  | cons l rest ih =>
    unfold scanLines at h
    split at h
    · rename_i m' hl
      obtain rfl : m' = m := by injection h
      exact ⟨l, List.mem_cons_self l rest, lineWinner_eq_some hl⟩
    · obtain ⟨l', hmem, hall⟩ := ih h
      exact ⟨l', List.mem_cons_of_mem l hmem, hall⟩

theorem scanLines_ne_none {b : Board} {L : List (Fin 9 × Fin 9 × Fin 9)}
    {l : Fin 9 × Fin 9 × Fin 9} {m : Player}
    (hmem : l ∈ L) (hall : lineAll b l m) : scanLines b L ≠ none := by
  induction L with
  | nil => exact absurd hmem (List.not_mem_nil l)
  | cons l' rest ih =>
    unfold scanLines
    split
    · simp
    · rename_i hl
      rcases List.mem_cons.mp hmem with rfl | hmem'
      · exact absurd (lineWinner_of_lineAll hall) (by rw [hl]; simp)
      · exact ih hmem'

theorem calculateWinner_eq_some {b : Board} {m : Player}
    (h : calculateWinner b = some m) : hasWin b m :=
  scanLines_eq_some h

theorem calculateWinner_eq_none_iff {b : Board} :
    calculateWinner b = none ↔ ∀ m, ¬ hasWin b m := by
  constructor
  · intro h m ⟨l, hmem, hall⟩
    exact scanLines_ne_none hmem hall h
  · intro h
    cases hw : calculateWinner b with
    | none => rfl
    | some m => exact absurd (calculateWinner_eq_some hw) (h m)

theorem calculateWinner_of_hasWin_unique {b : Board} {m : Player}
    (hw : hasWin b m) (hother : ∀ m', hasWin b m' → m' = m) :
    calculateWinner b = some m := by
  cases hc : calculateWinner b with
  | none => exact absurd hw (calculateWinner_eq_none_iff.mp hc m)
  | some m' => rw [hother m' (calculateWinner_eq_some hc)]

theorem evaluate_eq_win_iff {b : Board} {m : Player} :
    evaluate b = Outcome.win m ↔ calculateWinner b = some m := by
  unfold evaluate
  split
  · rename_i w heq; simp [heq]
  · rename_i heq; split <;> simp [heq]

theorem evaluate_eq_draw_iff {b : Board} :
    evaluate b = Outcome.draw ↔ calculateWinner b = none ∧ boardFull b = true := by
  unfold evaluate
  split
  · rename_i w heq; simp [heq]
  · rename_i heq; split <;> rename_i hf <;> simp [heq, hf]

theorem evaluate_eq_inProgress_iff {b : Board} :
    evaluate b = Outcome.inProgress ↔ calculateWinner b = none ∧ boardFull b = false := by
  unfold evaluate
  split
  · rename_i w heq; simp [heq]
  · rename_i heq; split <;> rename_i hf <;> simp [heq, hf]

/-- A board with winning rows for both marks: top row all X, middle row
all O (unreachable in alternating play, but a legal value of the board
data type). -/
def bothWinBoard : Board :=
  mkBoard (some .X) (some .X) (some .X) (some .O) (some .O) (some .O) none none none

/-- A board whose only winning line is the top row, all X. -/
def xRowBoard : Board :=
  mkBoard (some .X) (some .X) (some .X) (some .O) (some .O) none none none none

/-- C1 counterexample: on the board with a full X top row and a full O middle
row, the middle row is a line with all 3 cells equal to O, yet the evaluator
does not return Win(O) (it returns Win(X), the first line in source order) —
so "Win(m) iff some line is all-m" fails as stated, at mark O. -/
theorem evaluate_win_iff_fails_on_bothWinBoard :
    hasWin bothWinBoard Player.O ∧ evaluate bothWinBoard ≠ Outcome.win Player.O := by
  constructor
  · exact ⟨(3, 4, 5), by decide, by decide⟩
  · decide

/-- C1 (amended): the evaluator is total and mutually exclusive over
`{InProgress, Win, Draw}`; `Draw` holds iff the board is full with no
winning line; `InProgress` iff the board is not full and has no winning
line; `Win m` implies a line all of mark `m`; and on every board whose
winning lines do not belong to both marks at once (true of all positions
reachable in alternating play), `Win m` holds iff some line is all `m`. -/
theorem evaluate_classification (b : Board) :
    (evaluate b = Outcome.inProgress ∨ evaluate b = Outcome.draw ∨
      ∃ m, evaluate b = Outcome.win m) ∧
    (evaluate b = Outcome.draw ↔ (boardFull b = true ∧ ∀ m, ¬ hasWin b m)) ∧
    (evaluate b = Outcome.inProgress ↔ (boardFull b = false ∧ ∀ m, ¬ hasWin b m)) ∧
    (∀ m, evaluate b = Outcome.win m → hasWin b m) ∧
    (¬ (hasWin b Player.X ∧ hasWin b Player.O) →
      ∀ m, (evaluate b = Outcome.win m ↔ hasWin b m)) := by
  refine ⟨?_, ?_, ?_, ?_, ?_⟩
  · cases he : evaluate b with
    | inProgress => exact Or.inl rfl
    | win m => exact Or.inr (Or.inr ⟨m, rfl⟩)
    | draw => exact Or.inr (Or.inl rfl)
  · rw [evaluate_eq_draw_iff, calculateWinner_eq_none_iff, and_comm]
  · rw [evaluate_eq_inProgress_iff, calculateWinner_eq_none_iff, and_comm]
  · intro m h
    exact calculateWinner_eq_some (evaluate_eq_win_iff.mp h)
  · intro hnb m
    rw [evaluate_eq_win_iff]
    constructor
    · exact fun h => calculateWinner_eq_some h
    · intro hw
      refine calculateWinner_of_hasWin_unique hw ?_
      intro m' hw'
      by_contra hne
      cases m <;> cases m' <;> first
        | rfl
        | exact hnb ⟨hw', hw⟩
        | exact hnb ⟨hw, hw'⟩
        | exact absurd rfl hne

/-- Witness instantiating `evaluate_classification` on the board with a
single winning X row, discharging the no-double-win hypothesis there. -/
theorem evaluate_classification_witness :
    evaluate xRowBoard = Outcome.win Player.X ↔ hasWin xRowBoard Player.X :=
  (evaluate_classification xRowBoard).2.2.2.2 (by decide) Player.X

/-- Game mode, the `"two" | "ai"` state of App.js line 65. -/
inductive Mode where
  | two : Mode
  | ai : Mode
deriving DecidableEq, Repr

/-- The `"ongoing" | "win" | "draw"` status string of App.js line 68. -/
inductive GStatus where
  | ongoing : GStatus
  | win : GStatus
  | draw : GStatus
deriving DecidableEq, Repr

/-- The React state of the App component (App.js lines 65-69): mode,
board, whose turn, cached status and cached winner. -/
structure AppState where
  mode : Mode
  board : Board
  isXNext : Bool
  status : GStatus
  winner : Option Player
deriving DecidableEq

/-- The game-over recomputation effect of App.js lines 77-89, which runs
after every board change: sets `status`/`winner` from `calculateWinner`
and board fullness. -/
def updateStatus (s : AppState) : AppState :=
  match calculateWinner s.board with
  | some w => { s with status := GStatus.win, winner := some w }
  | none =>
    if boardFull s.board then { s with status := GStatus.draw, winner := none }
    else { s with status := GStatus.ongoing, winner := none }

theorem updateStatus_board (s : AppState) : (updateStatus s).board = s.board := by
  unfold updateStatus
  cases h : calculateWinner s.board with
  | some w => simp
  | none => by_cases hf : boardFull s.board <;> simp [hf]

theorem updateStatus_mode (s : AppState) : (updateStatus s).mode = s.mode := by
  unfold updateStatus
  cases h : calculateWinner s.board with
  | some w => simp
  | none => by_cases hf : boardFull s.board <;> simp [hf]

theorem updateStatus_isXNext (s : AppState) : (updateStatus s).isXNext = s.isXNext := by
  unfold updateStatus
  cases h : calculateWinner s.board with
  | some w => simp
  | none => by_cases hf : boardFull s.board <;> simp [hf]

/-- `handleSquareClick(idx)` of App.js lines 114-121, composed with the
status effect that React runs on the resulting board before the next
event is processed.  The two early returns are the non-mutating
rejections; on success the board is copied-and-updated at `idx` and the
turn flips. -/
def handleSquareClick (s : AppState) (idx : Fin 9) : AppState :=
  if s.board idx ≠ none ∨ s.status ≠ GStatus.ongoing then s
  else if s.mode = Mode.ai ∧ s.isXNext = false then s
  else
    updateStatus
      { s with
        board := setCell s.board idx (some (if s.isXNext then Player.X else Player.O)),
        isXNext := !s.isXNext }

/-- `handleReset()` of App.js lines 125-130: empty board, X to move,
status ongoing, no winner; the mode is left as it is. -/
def handleReset (s : AppState) : AppState :=
  { s with
    board := emptyBoard,
    isXNext := true,
    status := GStatus.ongoing,
    winner := none }

/-- `handleModeChange(e)` of App.js lines 134-137: store the selected
mode, then `handleReset()`. -/
def handleModeChange (s : AppState) (m : Mode) : AppState :=
  handleReset { s with mode := m }

/-- A fresh session in mode `m`, as produced at mount (App.js lines 65-69). -/
def initSession (m : Mode) : AppState :=
  { mode := m,
    board := emptyBoard,
    isXNext := true,
    status := GStatus.ongoing,
    winner := none }

/-- The rejection condition of the spec's `placeMark`, in the spec's
order: game over, or target occupied, or — vs the automated opponent —
not the human player's (X's) turn. -/
def clickRejected (s : AppState) (idx : Fin 9) : Prop :=
  s.status ≠ GStatus.ongoing ∨ s.board idx ≠ none ∨
    (s.mode = Mode.ai ∧ s.isXNext = false)

instance (s : AppState) (idx : Fin 9) : Decidable (clickRejected s idx) := by
  unfold clickRejected; infer_instance

/-- C2: `handleSquareClick` leaves the session exactly as it was (the
silent early return is the `IllegalMoveError` rejection) precisely when
the game is over, the target cell is occupied, or — in vs-AI mode — it
is not the human player's turn; when none of those holds it genuinely
mutates the session, placing the mover's mark at the clicked cell. -/
theorem handleSquareClick_reject_iff (s : AppState) (idx : Fin 9) :
    (clickRejected s idx → handleSquareClick s idx = s) ∧
    (¬ clickRejected s idx →
      handleSquareClick s idx ≠ s ∧
      (handleSquareClick s idx).board idx =
        some (if s.isXNext then Player.X else Player.O) ∧
      (∀ j, j ≠ idx → (handleSquareClick s idx).board j = s.board j) ∧
      (handleSquareClick s idx).mode = s.mode) := by
  constructor
  · intro hrej
    unfold handleSquareClick
    rcases hrej with h | h | h
    · rw [if_pos (Or.inr h)]
    · rw [if_pos (Or.inl h)]
    · by_cases h0 : s.board idx ≠ none ∨ s.status ≠ GStatus.ongoing
      · rw [if_pos h0]
      · rw [if_neg h0, if_pos h]
  · intro hrej
    unfold clickRejected at hrej
    push_neg at hrej
    obtain ⟨hstat, hcell, hmode0⟩ := hrej
    have hmode : ¬ (s.mode = Mode.ai ∧ s.isXNext = false) := fun h => hmode0 h.1 h.2
    have hcond : ¬ (s.board idx ≠ none ∨ s.status ≠ GStatus.ongoing) := by
      push_neg
      exact ⟨hcell, hstat⟩
    have hboard : (handleSquareClick s idx).board =
        setCell s.board idx (some (if s.isXNext then Player.X else Player.O)) := by
      unfold handleSquareClick
      rw [if_neg hcond, if_neg hmode, updateStatus_board]
    refine ⟨?_, ?_, ?_, ?_⟩
    · intro heq
      have : (handleSquareClick s idx).board idx = s.board idx := by rw [heq]
      rw [hboard] at this
      unfold setCell at this
      rw [if_pos rfl] at this
      rw [hcell] at this
      exact absurd this (by simp)
    · rw [hboard]; unfold setCell; rw [if_pos rfl]
    · intro j hj
      rw [hboard]; unfold setCell; rw [if_neg hj]
    · unfold handleSquareClick
      rw [if_neg hcond, if_neg hmode, updateStatus_mode]

/-- Witness for C2: on a fresh two-player session, clicking cell 0 is not
rejected and places X there, and clicking an occupied cell afterwards is
rejected. -/
theorem handleSquareClick_reject_iff_witness :
    handleSquareClick (initSession Mode.two) 0 ≠ initSession Mode.two ∧
    handleSquareClick (handleSquareClick (initSession Mode.two) 0) 0 =
      handleSquareClick (initSession Mode.two) 0 := by
  constructor
  · exact ((handleSquareClick_reject_iff (initSession Mode.two) 0).2 (by decide)).1
  · exact (handleSquareClick_reject_iff (handleSquareClick (initSession Mode.two) 0) 0).1
      (by decide)

/-- A consistent mid-game session: X has cells 0 and 1, O has cells 3 and
4, X to move, status ongoing. -/
def preWinSession : AppState :=
  { mode := Mode.two,
    board := mkBoard (some Player.X) (some Player.X) none
      (some Player.O) (some Player.O) none none none none,
    isXNext := true,
    status := GStatus.ongoing,
    winner := none }

/-- C3 counterexample: clicking cell 2 of `preWinSession` is a legal
placement that wins for X, yet the turn still flips (App.js line 120 runs
`setIsXNext((prev) => !prev)` unconditionally) — so "the Turn has flipped
iff the recomputed Outcome is still InProgress" fails on this placement. -/
theorem turn_flip_iff_inProgress_fails :
    ¬ clickRejected preWinSession 2 ∧
    (handleSquareClick preWinSession 2).status = GStatus.win ∧
    ¬ (((handleSquareClick preWinSession 2).isXNext ≠ preWinSession.isXNext) ↔
        (handleSquareClick preWinSession 2).status = GStatus.ongoing) := by
  refine ⟨by decide, by decide, ?_⟩
  intro hiff
  have h1 : (handleSquareClick preWinSession 2).isXNext ≠ preWinSession.isXNext := by decide
  have h2 : (handleSquareClick preWinSession 2).status = GStatus.ongoing := hiff.mp h1
  exact absurd h2 (by decide)

theorem handleSquareClick_flips_turn (s : AppState) (idx : Fin 9)
    (h : ¬ clickRejected s idx) :
    (handleSquareClick s idx).isXNext = !s.isXNext := by
  unfold clickRejected at h
  push_neg at h
  obtain ⟨hstat, hcell, hmode0⟩ := h
  have hmode : ¬ (s.mode = Mode.ai ∧ s.isXNext = false) := fun h => hmode0 h.1 h.2
  have hcond : ¬ (s.board idx ≠ none ∨ s.status ≠ GStatus.ongoing) := by
    push_neg
    exact ⟨hcell, hstat⟩
  unfold handleSquareClick
  rw [if_neg hcond, if_neg hmode, updateStatus_isXNext]

/-- Folding a list of clicks through `handleSquareClick`. -/
def playMoves (s : AppState) : List (Fin 9) → AppState
  | [] => s
  | i :: rest => playMoves (handleSquareClick s i) rest

/-- Every click of the list is accepted at the point it is played. -/
def allAccepted (s : AppState) : List (Fin 9) → Prop
  | [] => True
  | i :: rest => ¬ clickRejected s i ∧ allAccepted (handleSquareClick s i) rest

/-- C3 (amended): every successful `handleSquareClick` flips the turn
unconditionally — including placements that produce a Win or Draw (the
claimed "iff the recomputed Outcome is still InProgress" does not hold on
the code: the flip also happens on terminating placements) — and after N accepted
placements, terminating or not, the turn has flipped exactly N times,
i.e. the final turn is the initial turn xor the parity of N. -/
theorem accepted_clicks_flip_turn (s : AppState) (idx : Fin 9) (ms : List (Fin 9))
    (h : ¬ clickRejected s idx) (hms : allAccepted s ms) :
    (handleSquareClick s idx).isXNext = !s.isXNext ∧
    (playMoves s ms).isXNext = Bool.xor s.isXNext (decide (ms.length % 2 = 1)) := by
  refine ⟨handleSquareClick_flips_turn s idx h, ?_⟩
  clear h idx
  induction ms generalizing s with
  | nil => simp [playMoves]
  | cons i rest ih =>
    obtain ⟨hacc, hrest⟩ := hms
    have hstep := handleSquareClick_flips_turn s i hacc
    unfold playMoves
    rw [ih _ hrest, hstep]
    rcases Nat.mod_two_eq_zero_or_one rest.length with h2 | h2
    · have h3 : (i :: rest).length % 2 = 1 := by simp [List.length_cons]; omega
      rw [h2, h3]
      cases s.isXNext <;> rfl
    · have h3 : (i :: rest).length % 2 = 0 := by simp [List.length_cons]; omega
      rw [h2, h3]
      cases s.isXNext <;> rfl

/-- Witness for C3 (amended), on a fresh two-player session with the
accepted click list [0, 1]. -/
theorem accepted_clicks_flip_turn_witness :
    (handleSquareClick (initSession Mode.two) 0).isXNext = !(initSession Mode.two).isXNext ∧
    (playMoves (initSession Mode.two) [0, 1]).isXNext =
      Bool.xor (initSession Mode.two).isXNext
        (decide (([0, 1] : List (Fin 9)).length % 2 = 1)) :=
  accepted_clicks_flip_turn (initSession Mode.two) 0 [0, 1] (by decide)
    (by refine ⟨by decide, by decide, trivial⟩)

/-- C7: `handleReset` always yields the fresh session of the current mode
— empty board, X to move, ongoing status (and indeed the evaluator reports
InProgress on that board) — regardless of the prior session state; and
`handleModeChange` installs the new mode and performs the same reset, so
no in-progress state survives a mode change. -/
theorem handleReset_fresh (s : AppState) (m : Mode) :
    handleReset s = initSession s.mode ∧
    evaluate (handleReset s).board = Outcome.inProgress ∧
    (handleReset s).board = emptyBoard ∧
    (handleReset s).isXNext = true ∧
    (handleReset s).status = GStatus.ongoing ∧
    (handleReset s).winner = none ∧
    (handleReset s).mode = s.mode ∧
    handleModeChange s m = initSession m := by
  have hev : evaluate emptyBoard = Outcome.inProgress := by decide
  exact ⟨rfl, hev, rfl, rfl, rfl, rfl, rfl, rfl⟩

/-- The empty-square index list of `getAIMove` (App.js lines 33-35):
`squares.map((val, i) => (val ? null : i)).filter((i) => i !== null)`,
ascending (row-major) order. -/
def emptyIndices (squares : Board) : List (Fin 9) :=
  (List.finRange 9).filter fun i => decide (squares i = none)

/-- The "try to win" test of the App.js lines 40-44 loop body: place the
AI mark `"O"` on a copy and ask `calculateWinner`. -/
def winsForO (squares : Board) (idx : Fin 9) : Bool :=
  decide (calculateWinner (setCell squares idx (some Player.O)) = some Player.O)

/-- The "try to block" test of the App.js lines 46-50 loop body: place the
opponent mark `"X"` on a copy and ask `calculateWinner`. -/
def winsForX (squares : Board) (idx : Fin 9) : Bool :=
  decide (calculateWinner (setCell squares idx (some Player.X)) = some Player.X)

/-- `getAIMove(squares)` of App.js lines 32-54.  The `Math.random()` draw
of the final fallback is modelled by the extra parameter `rand`: the
source picks `emptyIndices[Math.floor(Math.random() * emptyIndices.length)]`,
i.e. the entry at an arbitrary position below the length, here
`rand % emptyIndices.length`. -/
def getAIMove (squares : Board) (rand : Nat) : Option (Fin 9) :=
  match (emptyIndices squares).find? (winsForO squares) with
  | some idx => some idx
  | none =>
    match (emptyIndices squares).find? (winsForX squares) with
    | some idx => some idx
    | none =>
      if (4 : Fin 9) ∈ emptyIndices squares then some 4
      else if (emptyIndices squares).length = 0 then none
      else (emptyIndices squares).get? (rand % (emptyIndices squares).length)

/-- Specification-side selector: the first cell in row-major scan order
that is empty and whose hypothetical occupation by O makes O win. -/
def firstWinCell (squares : Board) : Option (Fin 9) :=
  (List.finRange 9).find? fun i => decide (squares i = none) && winsForO squares i

/-- Specification-side selector: the first cell in row-major scan order
that is empty and whose hypothetical occupation by X would make X win. -/
def firstBlockCell (squares : Board) : Option (Fin 9) :=
  (List.finRange 9).find? fun i => decide (squares i = none) && winsForX squares i

theorem find?_filter_eq {α : Type} (l : List α) (q p : α → Bool) :
    (l.filter q).find? p = l.find? fun a => q a && p a := by
  induction l with
  | nil => rfl
  | cons a rest ih =>
    by_cases hq : q a
    · rw [List.filter_cons_of_pos hq]
      by_cases hp : p a
      · rw [List.find?_cons_of_pos _ hp, List.find?_cons_of_pos _ (by simp [hq, hp])]
      · rw [List.find?_cons_of_neg _ hp, List.find?_cons_of_neg _ (by simp [hq, hp]), ih]
    · rw [List.filter_cons_of_neg hq, List.find?_cons_of_neg _ (by simp [hq]), ih]

theorem firstWinCell_eq (squares : Board) :
    firstWinCell squares = (emptyIndices squares).find? (winsForO squares) := by
  unfold firstWinCell emptyIndices
  rw [find?_filter_eq]

theorem firstBlockCell_eq (squares : Board) :
    firstBlockCell squares = (emptyIndices squares).find? (winsForX squares) := by
  unfold firstBlockCell emptyIndices
  rw [find?_filter_eq]

theorem mem_emptyIndices {squares : Board} {i : Fin 9} :
    i ∈ emptyIndices squares ↔ squares i = none := by
  unfold emptyIndices
  rw [List.mem_filter]
  simp [List.mem_finRange]

theorem emptyIndices_eq_nil_iff {squares : Board} :
    emptyIndices squares = [] ↔ ∀ i, squares i ≠ none := by
  unfold emptyIndices
  rw [List.filter_eq_nil_iff]
  constructor
  · intro h i heq
    have := h i (List.mem_finRange i)
    simp [heq] at this
  · intro h i _
    simp [h i]

/-- The priority contract of App.js's `getAIMove`: `none` iff the board
has no empty cell; otherwise the first empty cell (row-major) whose
occupation by O wins, else the first empty cell whose occupation by X
would win (the block), else the center cell 4 when empty, else the
random-fallback entry of the remaining empty cells — the entry at the
drawn position, every remaining empty cell being reachable under some
draw. -/
theorem getAIMove_priority (squares : Board) (k : Nat) :
    (getAIMove squares k = none ↔ ∀ i, squares i ≠ none) ∧
    (∀ i, firstWinCell squares = some i → getAIMove squares k = some i) ∧
    (firstWinCell squares = none →
      ∀ i, firstBlockCell squares = some i → getAIMove squares k = some i) ∧
    (firstWinCell squares = none → firstBlockCell squares = none →
      squares 4 = none → getAIMove squares k = some 4) ∧
    (firstWinCell squares = none → firstBlockCell squares = none →
      squares 4 ≠ none →
      getAIMove squares k =
        (emptyIndices squares).get? (k % (emptyIndices squares).length) ∧
      (∀ i, squares i = none → ∃ q, getAIMove squares q = some i)) := by
  refine ⟨?_, ?_, ?_, ?_, ?_⟩
  · constructor
    · intro h
      unfold getAIMove at h
      split at h
      · exact absurd h (by simp)
      · split at h
        · exact absurd h (by simp)
        · split at h
          · exact absurd h (by simp)
          · split at h
            · rename_i hlen
              exact emptyIndices_eq_nil_iff.mp (List.length_eq_zero.mp hlen)
            · rename_i hlen
              have hlt : k % (emptyIndices squares).length < (emptyIndices squares).length :=
                Nat.mod_lt _ (Nat.pos_of_ne_zero hlen)
              rw [List.get?_eq_get hlt] at h
              exact absurd h (by simp)
    · intro h
      have he : emptyIndices squares = [] := by
        cases hne : emptyIndices squares with
        | nil => rfl
        | cons a rest =>
          have ha : a ∈ emptyIndices squares := by
            rw [hne]; exact List.mem_cons_self a rest
          exact absurd (mem_emptyIndices.mp ha) (h a)
      unfold getAIMove
      rw [he]
      rfl
  · intro i hw
    rw [firstWinCell_eq] at hw
    unfold getAIMove
    rw [hw]
  · intro hw i hb
    rw [firstWinCell_eq] at hw
    rw [firstBlockCell_eq] at hb
    unfold getAIMove
    rw [hw, hb]
  · intro hw hb hc
    rw [firstWinCell_eq] at hw
    rw [firstBlockCell_eq] at hb
    unfold getAIMove
    rw [hw, hb, if_pos (mem_emptyIndices.mpr hc)]
  · intro hw hb hc
    rw [firstWinCell_eq] at hw
    rw [firstBlockCell_eq] at hb
    have h4 : (4 : Fin 9) ∉ emptyIndices squares := fun h => hc (mem_emptyIndices.mp h)
    constructor
    · simp only [getAIMove, hw, hb, if_neg h4]
      split
      · rename_i hlen
        rw [List.length_eq_zero.mp hlen]
        rfl
      · rfl
    · intro i hi
      obtain ⟨n, hn⟩ := List.get?_of_mem (mem_emptyIndices.mpr hi)
      refine ⟨n, ?_⟩
      have hlt : n < (emptyIndices squares).length := by
        by_contra hge
        rw [List.get?_eq_none.mpr (Nat.le_of_not_lt hge)] at hn
        exact absurd hn (by simp)
      unfold getAIMove
      rw [hw, hb, if_neg h4, if_neg (by omega), Nat.mod_eq_of_lt hlt, hn]

/-- A session where O can win immediately: O holds 0 and 1, X holds 3
and 4; placing O at 2 completes the top row. -/
def oCanWinBoard : Board :=
  mkBoard (some Player.O) (some Player.O) none
    (some Player.X) (some Player.X) none none none none


/-- The two-dimensional board of the unnamed variants (part_000/part_001):
`Array(3).fill(null).map(() => Array(3).fill(null))`, rows of cells. -/
abbrev Board2 := Fin 3 → Fin 3 → Cell

/-- The all-empty two-dimensional board. -/
def emptyBoard2 : Board2 := fun _ _ => none

/-- The row-major correspondence between the two board representations:
flat cell `k` is two-dimensional cell (k / 3, k % 3). -/
def flat2 (b : Board2) : Board :=
  fun k => b ⟨k.val / 3, by have := k.isLt; omega⟩ ⟨k.val % 3, by omega⟩

/-- The test `line.every(cell => cell && cell === line[0])`, returning
`line[0]`, of the variants' `calculateWinner` (part_000 lines 49-51). -/
def lineWins2 (l : Cell × Cell × Cell) : Option Player :=
  match l.1 with
  | none => none
  | some m => if l.2.1 = some m ∧ l.2.2 = some m then some m else none

/-- The `checkLines` list of part_000 lines 38-47, in source order: for
each i, row i then column i (interleaved), then the two diagonals. -/
def checkLines2 (b : Board2) : List (Cell × Cell × Cell) :=
  [(b 0 0, b 0 1, b 0 2), (b 0 0, b 1 0, b 2 0),
   (b 1 0, b 1 1, b 1 2), (b 0 1, b 1 1, b 2 1),
   (b 2 0, b 2 1, b 2 2), (b 0 2, b 1 2, b 2 2),
   (b 0 0, b 1 1, b 2 2), (b 0 2, b 1 1, b 2 0)]

/-- The `for (const line of checkLines)` loop of part_000 lines 49-51. -/
def scanLines2 : List (Cell × Cell × Cell) → Option Player
  | [] => none
  | l :: rest =>
    match lineWins2 l with
    | some m => some m
    | none => scanLines2 rest

/-- The result strings of the variants' `calculateWinner`: a mark or
`"draw"` (wrapped in `Option` for the `null` case). -/
inductive Result2 where
  | mark : Player → Result2
  | draw : Result2
deriving DecidableEq, Repr

/-- `board.flat().every(cell => cell !== EMPTY)` of part_000 line 53. -/
def boardFull2 (b : Board2) : Bool :=
  (((List.finRange 3).map fun i => (List.finRange 3).map fun j => b i j).flatten).all
    fun c => decide (c ≠ none)

/-- `calculateWinner(board)` of part_000 lines 36-55: the mark of the
first all-equal non-empty line in the interleaved order, else `"draw"` on
a full board, else `null`. -/
def calculateWinner2 (b : Board2) : Option Result2 :=
  match scanLines2 (checkLines2 b) with
  | some m => some (Result2.mark m)
  | none => if boardFull2 b then some Result2.draw else none

/-- The flat evaluator's outcome expressed in the variants' result type:
`Win m` is the mark string, `Draw` is `"draw"`, `InProgress` is `null`. -/
def resultOfOutcome : Outcome → Option Result2
  | Outcome.win m => some (Result2.mark m)
  | Outcome.draw => some Result2.draw
  | Outcome.inProgress => none

/-- The flat index triples listed in the variants' interleaved line order
(row 0, column 0, row 1, column 1, row 2, column 2, diagonal,
anti-diagonal). -/
def lines2flat : List (Fin 9 × Fin 9 × Fin 9) :=
  [(0, 1, 2), (0, 3, 6), (3, 4, 5), (1, 4, 7),
   (6, 7, 8), (2, 5, 8), (0, 4, 8), (2, 4, 6)]

theorem boardFull_flat2 (b : Board2) : boardFull (flat2 b) = boardFull2 b := by
  have h9 : List.finRange 9 = [0, 1, 2, 3, 4, 5, 6, 7, 8] := rfl
  have h3 : List.finRange 3 = [0, 1, 2] := rfl
  unfold boardFull boardFull2
  rw [h9, h3]
  simp only [List.map_cons, List.map_nil, List.flatten, List.all_cons, List.all_nil,
    List.append_nil, List.cons_append, List.nil_append]
  have hc : ∀ c : Cell, decide (c ≠ none) = c.isSome := by
    intro c; cases c <;> simp
  simp only [hc, Bool.and_true, Bool.and_assoc]
  rfl

/-- Scanning the same eight lines in the variants' interleaved order and
in App.js's grouped order yields the same result: the orders differ only
in the relative placement of rows and columns, and a row and a column
that both win share a cell, hence share their mark. -/
theorem scan_order_eq (f : Board) :
    scanLines f lines2flat = scanLines f lines := by
  cases h0 : lineWinner f (0, 1, 2) with
  | some m => simp [lines, lines2flat, scanLines, h0]
  | none =>
    cases hc0 : lineWinner f (0, 3, 6) with
    | some m =>
      cases h1 : lineWinner f (3, 4, 5) with
      | some m1 =>
        have e1 := (lineWinner_eq_some h1).1
        have e2 := (lineWinner_eq_some hc0).2.1
        obtain rfl : m1 = m := by rw [e1] at e2; injection e2
        simp [lines, lines2flat, scanLines, h0, hc0, h1]
      | none =>
        cases h2 : lineWinner f (6, 7, 8) with
        | some m2 =>
          have e1 := (lineWinner_eq_some h2).1
          have e2 := (lineWinner_eq_some hc0).2.2
          obtain rfl : m2 = m := by rw [e1] at e2; injection e2
          simp [lines, lines2flat, scanLines, h0, hc0, h1, h2]
        | none => simp [lines, lines2flat, scanLines, h0, hc0, h1, h2]
    | none =>
      cases h1 : lineWinner f (3, 4, 5) with
      | some m1 => simp [lines, lines2flat, scanLines, h0, hc0, h1]
      | none =>
        cases hc1 : lineWinner f (1, 4, 7) with
        | some m =>
          cases h2 : lineWinner f (6, 7, 8) with
          | some m2 =>
            have e1 := (lineWinner_eq_some h2).2.1
            have e2 := (lineWinner_eq_some hc1).2.2
            obtain rfl : m2 = m := by rw [e1] at e2; injection e2
            simp [lines, lines2flat, scanLines, h0, hc0, h1, hc1, h2]
          | none => simp [lines, lines2flat, scanLines, h0, hc0, h1, hc1, h2]
        | none =>
          simp [lines, lines2flat, scanLines, h0, hc0, h1, hc1]

/-- C10: the two-dimensional evaluator of the unnamed variants and the
flat evaluator of App.js agree on every board under the row-major
correspondence — same winning mark, same draw, same no-outcome, including
on boards with several complete lines. -/
theorem evaluators_agree (b : Board2) :
    calculateWinner2 b = resultOfOutcome (evaluate (flat2 b)) := by
  have hscan : scanLines2 (checkLines2 b) = calculateWinner (flat2 b) := by
    have h1 : scanLines2 (checkLines2 b) = scanLines (flat2 b) lines2flat := rfl
    rw [h1, scan_order_eq]
    rfl
  unfold calculateWinner2
  rw [hscan]
  cases hw : calculateWinner (flat2 b) with
  | some m => simp [evaluate, resultOfOutcome, hw]
  | none =>
    simp only [evaluate, hw]
    rw [boardFull_flat2 b]
    by_cases hf : boardFull2 b
    · simp [hf, resultOfOutcome]
    · simp [hf, resultOfOutcome]

/-- The `emptySquares` list of `aiMove` (part_000 lines 25-30): nested
row-major loops collecting the coordinates of empty cells. -/
def emptySquares2 (b : Board2) : List (Fin 3 × Fin 3) :=
  (List.finRange 3).flatMap fun i =>
    ((List.finRange 3).filter fun j => decide (b i j = none)).map fun j => (i, j)

/-- `aiMove(board)` of part_000 lines 24-33: `null` when no empty square
exists, otherwise a random entry of `emptySquares`; the `Math.random()`
draw is modelled by `rand` as in `getAIMove`. -/
def aiMove2 (b : Board2) (rand : Nat) : Option (Fin 3 × Fin 3) :=
  if (emptySquares2 b).length = 0 then none
  else (emptySquares2 b).get? (rand % (emptySquares2 b).length)

/-- C9: whenever an opponent policy returns a move rather than none, the
coordinate is within the 3x3 bounds and designates a cell that is empty
on the input board — for the win/block/center/random policy `getAIMove`
of App.js and for the random policy `aiMove` of the unnamed variants. -/
theorem opponent_moves_legal (squares : Board) (k : Nat) (b2 : Board2) (k2 : Nat) :
    (∀ i : Fin 9, getAIMove squares k = some i → i.val < 9 ∧ squares i = none) ∧
    (∀ ij : Fin 3 × Fin 3, aiMove2 b2 k2 = some ij →
      ij.1.val < 3 ∧ ij.2.val < 3 ∧ b2 ij.1 ij.2 = none) := by
  constructor
  · intro i h
    refine ⟨i.isLt, ?_⟩
    have hmem : i ∈ emptyIndices squares := by
      unfold getAIMove at h
      split at h
      · rename_i idx hfind
        obtain rfl : idx = i := by injection h
        exact List.mem_of_find?_eq_some hfind
      · split at h
        · rename_i idx hfind
          obtain rfl : idx = i := by injection h
          exact List.mem_of_find?_eq_some hfind
        · split at h
          · rename_i h4
            obtain rfl : (4 : Fin 9) = i := by injection h
            exact h4
          · split at h
            · exact absurd h (by simp)
            · exact List.get?_mem h
    exact mem_emptyIndices.mp hmem
  · intro ij h
    refine ⟨ij.1.isLt, ij.2.isLt, ?_⟩
    have hmem : ij ∈ emptySquares2 b2 := by
      unfold aiMove2 at h
      split at h
      · exact absurd h (by simp)
      · exact List.get?_mem h
    unfold emptySquares2 at hmem
    rw [List.mem_flatMap] at hmem
    obtain ⟨i, -, hmem2⟩ := hmem
    rw [List.mem_map] at hmem2
    obtain ⟨j, hj, rfl⟩ := hmem2
    have := (List.mem_filter.mp hj).2
    simpa using this

/-- Witness for C9: on the empty board, `getAIMove` takes the center
(cell 4) and `aiMove` with draw 0 takes (0, 0); both are in bounds and
empty. -/
theorem opponent_moves_legal_witness :
    ((4 : Fin 9).val < 9 ∧ emptyBoard 4 = none) ∧
    (((0 : Fin 3), (0 : Fin 3)).1.val < 3 ∧ ((0 : Fin 3), (0 : Fin 3)).2.val < 3 ∧
      emptyBoard2 ((0 : Fin 3), (0 : Fin 3)).1 ((0 : Fin 3), (0 : Fin 3)).2 = none) :=
  ⟨(opponent_moves_legal emptyBoard 0 emptyBoard2 0).1 4 (by decide),
   (opponent_moves_legal emptyBoard 0 emptyBoard2 0).2 ((0 : Fin 3), (0 : Fin 3)) (by decide)⟩

/-- A convenient explicit two-dimensional board builder, cells row-major. -/
def mkBoard2 (c0 c1 c2 c3 c4 c5 c6 c7 c8 : Cell) : Board2 :=
  fun i j => [c0, c1, c2, c3, c4, c5, c6, c7, c8].getD (i.val * 3 + j.val) none

/-- Copying update of a two-dimensional board, for stating hypothetical
placements against the variants' evaluator. -/
def setCell2 (b : Board2) (i j : Fin 3) (v : Cell) : Board2 :=
  fun x y => if x = i ∧ y = j then v else b x y

/-- A two-dimensional board where O wins immediately by taking (0, 2):
O holds (0,0) and (0,1), X holds (1,0) and (1,1). -/
def oCanWin2Board : Board2 :=
  mkBoard2 (some Player.O) (some Player.O) none
    (some Player.X) (some Player.X) none none none none

theorem mem_emptySquares2 {b2 : Board2} {ij : Fin 3 × Fin 3} :
    ij ∈ emptySquares2 b2 ↔ b2 ij.1 ij.2 = none := by
  unfold emptySquares2
  rw [List.mem_flatMap]
  constructor
  · rintro ⟨i, -, hmem⟩
    rw [List.mem_map] at hmem
    obtain ⟨j, hj, rfl⟩ := hmem
    have := (List.mem_filter.mp hj).2
    simpa using this
  · intro h
    refine ⟨ij.1, List.mem_finRange _, ?_⟩
    rw [List.mem_map]
    refine ⟨ij.2, ?_, rfl⟩
    rw [List.mem_filter]
    exact ⟨List.mem_finRange _, by simpa using h⟩

theorem emptySquares2_eq_nil_iff {b2 : Board2} :
    emptySquares2 b2 = [] ↔ ∀ (i j : Fin 3), b2 i j ≠ none := by
  rw [List.eq_nil_iff_forall_not_mem]
  constructor
  · intro h i j hij
    exact h (i, j) (mem_emptySquares2.mpr hij)
  · rintro h ⟨i, j⟩ hmem
    exact h i j (mem_emptySquares2.mp hmem)

theorem aiMove2_eq_get (b2 : Board2) (k2 : Nat) :
    aiMove2 b2 k2 = (emptySquares2 b2).get? (k2 % (emptySquares2 b2).length) := by
  unfold aiMove2
  split
  · rename_i hlen
    rw [List.length_eq_zero.mp hlen]
    rfl
  · rfl

theorem aiMove2_eq_none_iff (b2 : Board2) (k2 : Nat) :
    aiMove2 b2 k2 = none ↔ ∀ (i j : Fin 3), b2 i j ≠ none := by
  rw [aiMove2_eq_get, ← @emptySquares2_eq_nil_iff b2]
  constructor
  · intro h
    by_contra hne
    have hpos : 0 < (emptySquares2 b2).length := by
      cases hl : emptySquares2 b2 with
      | nil => exact absurd hl hne
      | cons a rest => simp
    have hlt := Nat.mod_lt k2 hpos
    rw [List.get?_eq_none] at h
    omega
  · intro h
    rw [h]
    rfl

theorem aiMove2_reaches_empty (b2 : Board2) (ij : Fin 3 × Fin 3)
    (h : b2 ij.1 ij.2 = none) : ∃ q, aiMove2 b2 q = some ij := by
  obtain ⟨n, hn⟩ := List.get?_of_mem (mem_emptySquares2.mpr h)
  have hlt : n < (emptySquares2 b2).length := by
    by_contra hge
    rw [List.get?_eq_none.mpr (Nat.le_of_not_lt hge)] at hn
    exact absurd hn (by simp)
  refine ⟨n, ?_⟩
  rw [aiMove2_eq_get, Nat.mod_eq_of_lt hlt, hn]

/-- C4 counterexample: the `aiMove` policy of the unnamed variants does
not follow the claimed priority order.  On a board where O wins
immediately by taking (0, 2) — hypothetically placing O there makes the
variants' evaluator report an O win — the policy under random draw 1
returns (1, 2) instead, whose occupation by O wins nothing: the "win
now" step (and with it the whole win/block/center cascade) is absent
from `aiMove`. -/
theorem aiMove_ignores_winning_move :
    oCanWin2Board 0 2 = none ∧
    calculateWinner2 (setCell2 oCanWin2Board 0 2 (some Player.O)) =
      some (Result2.mark Player.O) ∧
    aiMove2 oCanWin2Board 1 = some (1, 2) ∧
    calculateWinner2 (setCell2 oCanWin2Board 1 2 (some Player.O)) ≠
      some (Result2.mark Player.O) := by
  exact ⟨by decide, by decide, by decide, by decide⟩

/-- C4 (amended): App.js's `getAIMove` returns `none` iff the board has
no empty cell and otherwise follows the claimed strict priority order —
first row-major empty cell whose occupation by O wins, else first whose
occupation by X would win, else the center when empty, else the random
entry of the remaining empty cells, every one reachable under some draw.
The `aiMove` policy of the unnamed variants implements only the final
step: it returns `none` iff the board has no empty cell, and otherwise
the empty square at the drawn position of the row-major empty-square
list, every empty square reachable under some draw — it has no win,
block, or center steps. -/
theorem opponent_policy_contract (squares : Board) (k : Nat) (b2 : Board2) (k2 : Nat) :
    ((getAIMove squares k = none ↔ ∀ i, squares i ≠ none) ∧
     (∀ i, firstWinCell squares = some i → getAIMove squares k = some i) ∧
     (firstWinCell squares = none →
       ∀ i, firstBlockCell squares = some i → getAIMove squares k = some i) ∧
     (firstWinCell squares = none → firstBlockCell squares = none →
       squares 4 = none → getAIMove squares k = some 4) ∧
     (firstWinCell squares = none → firstBlockCell squares = none →
       squares 4 ≠ none →
       getAIMove squares k =
         (emptyIndices squares).get? (k % (emptyIndices squares).length) ∧
       (∀ i, squares i = none → ∃ q, getAIMove squares q = some i))) ∧
    ((aiMove2 b2 k2 = none ↔ ∀ (i j : Fin 3), b2 i j ≠ none) ∧
     aiMove2 b2 k2 = (emptySquares2 b2).get? (k2 % (emptySquares2 b2).length) ∧
     (∀ ij : Fin 3 × Fin 3, b2 ij.1 ij.2 = none → ∃ q, aiMove2 b2 q = some ij)) :=
  ⟨getAIMove_priority squares k,
   aiMove2_eq_none_iff b2 k2, aiMove2_eq_get b2 k2, aiMove2_reaches_empty b2⟩

/-- Witness for C4 (amended): on the flat board where O can win at cell 2
`getAIMove` takes that cell (priority step 1), and on the empty
two-dimensional board `aiMove` can return the empty square (0, 0). -/
theorem opponent_policy_contract_witness :
    getAIMove oCanWinBoard 0 = some 2 ∧
    (∃ q, aiMove2 emptyBoard2 q = some ((0 : Fin 3), (0 : Fin 3))) :=
  ⟨(opponent_policy_contract oCanWinBoard 0 emptyBoard2 0).1.2.1 2 (by decide),
   (opponent_policy_contract oCanWinBoard 0 emptyBoard2 0).2.2.2
     ((0 : Fin 3), (0 : Fin 3)) (by decide)⟩

/-- Scheduler-level session state of App.js: the React state plus the
pending `setTimeout` callback of the AI move effect (App.js lines
103-106), which captures the `nextBoard` computed at arming time. -/
structure SchedState where
  app : AppState
  pending : Option Board
deriving DecidableEq

/-- Initial vs-AI session with no pending timeout. -/
def initSched : SchedState :=
  { app := initSession Mode.ai, pending := none }

/-- A board click at the scheduler level (the timeout set is untouched). -/
def clickSched (s : SchedState) (idx : Fin 9) : SchedState :=
  { s with app := handleSquareClick s.app idx }

/-- The AI move effect of App.js lines 92-110: when the mode is `"ai"`,
it is O's turn and the game is ongoing, compute the move, capture
`nextBoard` and schedule `setBoard(nextBoard); setIsXNext(true)` on a
350ms timeout.  The effect returns no cleanup function, so arming only
ever adds a pending callback — nothing cancels it. -/
def runAIEffect (s : SchedState) (k : Nat) : SchedState :=
  if s.app.mode = Mode.ai ∧ s.app.isXNext = false ∧ s.app.status = GStatus.ongoing then
    match getAIMove s.app.board k with
    | some i => { s with pending := some (setCell s.app.board i (some Player.O)) }
    | none => s
  else s

/-- Expiry of the scheduled timeout (App.js lines 103-106): install the
captured board, give the turn back to X, and run the status effect. -/
def fireTimeout (s : SchedState) : SchedState :=
  match s.pending with
  | some nb =>
    { app := updateStatus { s.app with board := nb, isXNext := true }, pending := none }
  | none => s

/-- `handleReset` as observed at the scheduler level: App.js lines
125-130 reset the React state but keep no timer handle and call no
`clearTimeout`, so a pending callback survives the reset. -/
def resetSched (s : SchedState) : SchedState :=
  { s with app := handleReset s.app }

/-- A reset that cancels the outstanding timeout before replacing the
state — the behavior of the part_000 variant, whose AI effect returns
`() => clearTimeout(aiDelay)` (part_000 line 228) and which React runs
before the effect re-fires on the reset state. -/
def resetSchedCancel (s : SchedState) : SchedState :=
  { app := handleReset s.app, pending := none }

/-- C5 evidence (the code bug in App.js): play X at cell 0 in vs-AI mode,
let the effect arm the opponent reply (center, cell 4), reset while the
timeout is pending, then let the timeout expire.  The stale callback
still applies: the session board is not the empty board the claim
requires — it carries X at 0 and O at 4 from before the reset — even
though immediately after the reset the board was empty. -/
theorem pending_move_survives_reset :
    (fireTimeout (resetSched (runAIEffect (clickSched initSched 0) 0))).app.board ≠
      emptyBoard ∧
    (fireTimeout (resetSched (runAIEffect (clickSched initSched 0) 0))).app.board 4 =
      some Player.O ∧
    (fireTimeout (resetSched (runAIEffect (clickSched initSched 0) 0))).app.board 0 =
      some Player.X ∧
    (resetSched (runAIEffect (clickSched initSched 0) 0)).app.board = emptyBoard := by
  exact ⟨by decide, by decide, by decide, by decide⟩

/-- With the cancelling reset of the part_000 variant, the pending move
never applies: after any pending state, cancel-and-reset followed by the
(now cancelled) timeout leaves the fresh empty InProgress session. -/
theorem cancelled_move_never_applies (s : SchedState) :
    fireTimeout (resetSchedCancel s) = resetSchedCancel s ∧
    (fireTimeout (resetSchedCancel s)).app.board = emptyBoard ∧
    (fireTimeout (resetSchedCancel s)).app.status = GStatus.ongoing := by
  exact ⟨rfl, rfl, rfl⟩

/-- A heap of JS array objects: the board arrays allocated so far,
addressed by allocation index.  This models aliasing explicitly, so that
"never mutates a previously returned board value in place" is a statement
about stores, not a tautology of the pure embedding. -/
structure Heap where
  arrays : List (List Cell)

/-- Dereference an array address. -/
def Heap.read (h : Heap) (r : Nat) : List Cell :=
  (h.arrays[r]?).getD []

/-- Allocate a fresh array (what `squares.slice()` and `[...board]` do),
returning the new heap and the fresh address. -/
def Heap.alloc (h : Heap) (a : List Cell) : Heap × Nat :=
  ({ arrays := h.arrays ++ [a] }, h.arrays.length)

/-- In-place store `arr[idx] = v` into the array at address `r`. -/
def Heap.store (h : Heap) (r idx : Nat) (v : Cell) : Heap :=
  { arrays := h.arrays.set r ((h.arrays[r]?).getD [] |>.set idx v) }

/-- The board-update pattern of every write site in the sources:
`const copy = squares.slice(); copy[idx] = m` in the two `getAIMove`
hypothesis loops (App.js lines 41-42 and 47-48) and
`const nextBoard = [...board]; nextBoard[idx] = m` in the AI effect
(lines 101-102) and in `handleSquareClick` (lines 117-118): allocate a
copy of the source array, then store into the copy only. -/
def copyThenSet (h : Heap) (r idx : Nat) (v : Cell) : Heap × Nat :=
  ((h.alloc (h.read r)).1.store (h.alloc (h.read r)).2 idx v, (h.alloc (h.read r)).2)

/-- C6: the copy-on-write law.  `copyThenSet` — the only board-writing
operation performed by either player's placement or by the opponent
policy's hypothetical placements — returns a fresh address and leaves
every previously allocated array, in particular the input board `r`,
bit-for-bit unchanged; the fresh array holds the updated row-major
contents. -/
theorem copyThenSet_frame (h : Heap) (r idx : Nat) (v : Cell)
    (hr : r < h.arrays.length) :
    (∀ a, a < h.arrays.length → (copyThenSet h r idx v).1.read a = h.read a) ∧
    (copyThenSet h r idx v).1.read r = h.read r ∧
    (copyThenSet h r idx v).2 ≠ r ∧
    h.arrays.length ≤ (copyThenSet h r idx v).2 ∧
    (copyThenSet h r idx v).1.read (copyThenSet h r idx v).2 = (h.read r).set idx v := by
  have hframe : ∀ a, a < h.arrays.length → (copyThenSet h r idx v).1.read a = h.read a := by
    intro a ha
    unfold copyThenSet Heap.alloc Heap.store Heap.read
    simp only
    rw [List.getElem?_set_ne (by omega)]
    rw [List.getElem?_append]
    rw [if_pos ha]
  have hfst : (copyThenSet h r idx v).2 = h.arrays.length := rfl
  refine ⟨hframe, hframe r hr, by rw [hfst]; omega, by rw [hfst], ?_⟩
  · unfold copyThenSet Heap.alloc Heap.store Heap.read
    simp only
    have hlt : h.arrays.length < (h.arrays ++ [(h.arrays[r]?).getD []]).length := by
      simp
    rw [List.getElem?_set_eq]
    · rw [Option.getD_some]
      have : (h.arrays ++ [(h.arrays[r]?).getD []])[h.arrays.length]? =
          some ((h.arrays[r]?).getD []) := by
        rw [← List.get?_eq_getElem?]
        exact List.get?_concat_length _ _
      rw [this, Option.getD_some]
    · exact hlt

/-- Witness for C6 on a one-board heap: updating board 0 at cell 4 leaves
the stored board 0 unchanged and allocates address 1. -/
theorem copyThenSet_frame_witness :
    (copyThenSet { arrays := [[none, none, none]] } 0 1 (some Player.X)).1.read 0 =
      [none, none, none] ∧
    (copyThenSet { arrays := [[none, none, none]] } 0 1 (some Player.X)).2 = 1 ∧
    (copyThenSet { arrays := [[none, none, none]] } 0 1 (some Player.X)).1.read 1 =
      [none, some Player.X, none] := by
  have h := copyThenSet_frame { arrays := [[none, none, none]] } 0 1 (some Player.X)
    (by simp)
  refine ⟨h.2.1, ?_, ?_⟩
  · rfl
  · have := h.2.2.2.2
    simpa using this

/-- Complete-game step relation for vs-AI play with the human (X) moving
first, as App.js drives it: a human move is any click accepted while the
game is ongoing; an opponent move is a `getAIMove` output under some
random draw, applied with mark O.  Play stops as soon as `evaluate` is no
longer InProgress. -/
inductive Reach : Board → Bool → Prop where
  | init : Reach emptyBoard true
  | humanMove (b : Board) (i : Fin 9) :
      Reach b true → evaluate b = Outcome.inProgress → b i = none →
      Reach (setCell b i (some Player.X)) false
  | aiStep (b : Board) (k : Nat) (i : Fin 9) :
      Reach b false → evaluate b = Outcome.inProgress → getAIMove b k = some i →
      Reach (setCell b i (some Player.O)) true

/-- The corner-trap game: X 0, O 4 (center rule), X 8, O 2 (random draw
1 picks the corner 2 from the empties [1,2,3,5,6,7]), X 6 creating the
double threat 0-3-6 / 6-7-8, O 3 (the block rule finds 3 first), X 7. -/
def trapB1 : Board := setCell emptyBoard 0 (some Player.X)

def trapB2 : Board := setCell trapB1 4 (some Player.O)

def trapB3 : Board := setCell trapB2 8 (some Player.X)

def trapB4 : Board := setCell trapB3 2 (some Player.O)

def trapB5 : Board := setCell trapB4 6 (some Player.X)

def trapB6 : Board := setCell trapB5 3 (some Player.O)

def trapB7 : Board := setCell trapB6 7 (some Player.X)

/-- C8 counterexample: it is not true that every complete game against
the win/block/center/random opponent moving second ends without a human
win.  In the corner trap above every O move is the policy's output for
its stated random draw, and the final position is a Win for X via the
bottom row 6-7-8. -/
theorem ai_second_can_lose :
    ¬ (∀ (b : Board) (t : Bool), Reach b t → evaluate b ≠ Outcome.win Player.X) := by
  intro hall
  have h1 : Reach trapB1 false :=
    Reach.humanMove emptyBoard 0 Reach.init (by decide) (by decide)
  have h2 : Reach trapB2 true := Reach.aiStep trapB1 0 4 h1 (by decide) (by decide)
  have h3 : Reach trapB3 false := Reach.humanMove trapB2 8 h2 (by decide) (by decide)
  have h4 : Reach trapB4 true := Reach.aiStep trapB3 1 2 h3 (by decide) (by decide)
  have h5 : Reach trapB5 false := Reach.humanMove trapB4 6 h4 (by decide) (by decide)
  have h6 : Reach trapB6 true := Reach.aiStep trapB5 0 3 h5 (by decide) (by decide)
  have h7 : Reach trapB7 false := Reach.humanMove trapB6 7 h6 (by decide) (by decide)
  exact hall trapB7 false h7 (by decide)

/-- The immediate winning completions for the human: empty cells whose
occupation by X makes X win — exactly what the block scan of `getAIMove`
searches for. -/
def completions (b : Board) : List (Fin 9) :=
  (List.finRange 9).filter fun i => decide (b i = none) && winsForX b i

theorem mem_completions {b : Board} {i : Fin 9} :
    i ∈ completions b ↔
      b i = none ∧ calculateWinner (setCell b i (some Player.X)) = some Player.X := by
  unfold completions winsForX
  rw [List.mem_filter]
  simp [List.mem_finRange]

theorem setCell_comm {b : Board} {i j : Fin 9} {v w : Cell} (hij : i ≠ j) :
    setCell (setCell b i v) j w = setCell (setCell b j w) i v := by
  funext x
  unfold setCell
  by_cases hxj : x = j <;> by_cases hxi : x = i
  · exact absurd (hxi.symm.trans hxj) hij
  · subst hxj; simp [hxi]
  · subst hxi; simp [hxj]
  · simp [hxj, hxi]

theorem hasWin_of_hasWin_setCell {b : Board} {i : Fin 9} {v : Cell} {m : Player}
    (hv : v ≠ some m) (h : hasWin (setCell b i v) m) : hasWin b m := by
  obtain ⟨l, hmem, h1, h2, h3⟩ := h
  have hc : ∀ x : Fin 9, setCell b i v x = some m → b x = some m := by
    intro x hx
    unfold setCell at hx
    by_cases hxi : x = i
    · rw [if_pos hxi] at hx; exact absurd hx hv
    · rwa [if_neg hxi] at hx
  exact ⟨l, hmem, hc _ h1, hc _ h2, hc _ h3⟩

/-- After O occupies a cell of an in-progress board, every remaining
completion for X was already a completion before, and is not the cell O
took. -/
theorem completions_setO_subset {b : Board} {i j : Fin 9}
    (hev : evaluate b = Outcome.inProgress)
    (hj : j ∈ completions (setCell b i (some Player.O))) :
    j ∈ completions b ∧ j ≠ i := by
  obtain ⟨hjempty, hjwin⟩ := mem_completions.mp hj
  have hji : j ≠ i := by
    intro hji
    subst hji
    unfold setCell at hjempty
    rw [if_pos rfl] at hjempty
    exact absurd hjempty (by simp)
  have hbj : b j = none := by
    unfold setCell at hjempty
    rwa [if_neg hji] at hjempty
  have hW : hasWin (setCell (setCell b i (some Player.O)) j (some Player.X)) Player.X :=
    calculateWinner_eq_some hjwin
  rw [setCell_comm (Ne.symm hji)] at hW
  have hWX : hasWin (setCell b j (some Player.X)) Player.X :=
    hasWin_of_hasWin_setCell (by simp) hW
  have hnone : calculateWinner b = none := (evaluate_eq_inProgress_iff.mp hev).1
  have hcw : calculateWinner (setCell b j (some Player.X)) = some Player.X := by
    refine calculateWinner_of_hasWin_unique hWX ?_
    intro m' hm'
    cases m' with
    | X => rfl
    | O =>
      have hbO : hasWin b Player.O := hasWin_of_hasWin_setCell (by simp) hm'
      exact absurd hbO (calculateWinner_eq_none_iff.mp hnone Player.O)
  exact ⟨mem_completions.mpr ⟨hbj, hcw⟩, hji⟩

theorem completions_eq_nil_of_no_block {b : Board}
    (hfind : (emptyIndices b).find? (winsForX b) = none) :
    completions b = [] := by
  rw [List.eq_nil_iff_forall_not_mem]
  intro j hj
  obtain ⟨hje, hjw⟩ := mem_completions.mp hj
  have hjmem : j ∈ emptyIndices b := mem_emptyIndices.mpr hje
  exact List.find?_eq_none.mp hfind j hjmem (by unfold winsForX; exact decide_eq_true hjw)

theorem eq_singleton_of_mem_of_length_le_one {α : Type} {l : List α} {a : α}
    (h : a ∈ l) (hl : l.length ≤ 1) : l = [a] := by
  cases l with
  | nil => exact absurd h (List.not_mem_nil a)
  | cons x rest =>
    cases rest with
    | nil =>
      rw [List.mem_singleton] at h
      rw [h]
    | cons y rest2 => simp at hl

/-- The same step relation restricted by the single-threat hypothesis:
at every opponent move the board offers at most one winning completion
for the human. -/
inductive ReachR : Board → Bool → Prop where
  | init : ReachR emptyBoard true
  | humanMove (b : Board) (i : Fin 9) :
      ReachR b true → evaluate b = Outcome.inProgress → b i = none →
      ReachR (setCell b i (some Player.X)) false
  | aiStep (b : Board) (k : Nat) (i : Fin 9) :
      ReachR b false → evaluate b = Outcome.inProgress →
      (completions b).length ≤ 1 → getAIMove b k = some i →
      ReachR (setCell b i (some Player.O)) true

theorem reachR_invariant (b : Board) (t : Bool) (h : ReachR b t) :
    evaluate b ≠ Outcome.win Player.X ∧
    (t = true → evaluate b = Outcome.inProgress → completions b = []) := by
  induction h with
  | init => exact ⟨by decide, fun _ _ => by decide⟩
  | humanMove b i hr hev hcell ih =>
    refine ⟨?_, fun hft => absurd hft (by simp)⟩
    intro hwin
    have hcw : calculateWinner (setCell b i (some Player.X)) = some Player.X :=
      evaluate_eq_win_iff.mp hwin
    have hmem : i ∈ completions b := mem_completions.mpr ⟨hcell, hcw⟩
    rw [ih.2 rfl hev] at hmem
    exact absurd hmem (List.not_mem_nil i)
  | aiStep b k i hr hev hlen hmove ih =>
    have hnoX : evaluate (setCell b i (some Player.O)) ≠ Outcome.win Player.X := by
      intro hwin
      have hW : hasWin (setCell b i (some Player.O)) Player.X :=
        calculateWinner_eq_some (evaluate_eq_win_iff.mp hwin)
      have hbX : hasWin b Player.X := hasWin_of_hasWin_setCell (by simp) hW
      have hnone : calculateWinner b = none := (evaluate_eq_inProgress_iff.mp hev).1
      exact absurd hbX (calculateWinner_eq_none_iff.mp hnone Player.X)
    refine ⟨hnoX, ?_⟩
    intro _ hev'
    unfold getAIMove at hmove
    split at hmove
    · rename_i idx hfind
      have hidx : idx = i := by injection hmove
      rw [hidx] at hfind
      have hpredO : winsForO b i = true := List.find?_some hfind
      unfold winsForO at hpredO
      have hcw : calculateWinner (setCell b i (some Player.O)) = some Player.O :=
        of_decide_eq_true hpredO
      rw [(evaluate_eq_inProgress_iff.mp hev').1] at hcw
      exact absurd hcw (by simp)
    · split at hmove
      · rename_i hwnone idx hfind
        have hidx : idx = i := by injection hmove
        rw [hidx] at hfind
        have hpredX : winsForX b i = true := List.find?_some hfind
        have hiempty : b i = none := mem_emptyIndices.mp (List.mem_of_find?_eq_some hfind)
        have hic : i ∈ completions b :=
          mem_completions.mpr ⟨hiempty, of_decide_eq_true hpredX⟩
        have hcomp : completions b = [i] := eq_singleton_of_mem_of_length_le_one hic hlen
        rw [List.eq_nil_iff_forall_not_mem]
        intro j hj
        obtain ⟨hjb, hji⟩ := completions_setO_subset hev hj
        rw [hcomp] at hjb
        exact hji (List.mem_singleton.mp hjb)
      · rename_i hwnone hbnone
        have hnil : completions b = [] := completions_eq_nil_of_no_block hbnone
        rw [List.eq_nil_iff_forall_not_mem]
        intro j hj
        obtain ⟨hjb, -⟩ := completions_setO_subset hev hj
        rw [hnil] at hjb
        exact absurd hjb (List.not_mem_nil j)

/-- C8 (amended): the opponent moving second never loses in games where
the human never presents more than one immediate winning completion at
an opponent turn; the unrestricted claim is false — with a double threat
the human can force a win, as the corner-trap game shows. -/
theorem ai_second_never_loses_single_threat (b : Board) (t : Bool) (h : ReachR b t) :
    evaluate b ≠ Outcome.win Player.X :=
  (reachR_invariant b t h).1

/-- Witness for C8 (amended), at the initial position. -/
theorem ai_second_never_loses_single_threat_witness :
    evaluate emptyBoard ≠ Outcome.win Player.X :=
  ai_second_never_loses_single_threat emptyBoard true ReachR.init
